import Mathlib

/-!
Verification development for the FindPhotosOfMe repository (python).

We shallowly embed the ingestion and search pipelines:

* `services/face_recognition_service.py` — cosine-similarity comparison
  (`compare_embeddings`) and the per-file face scan (`find_matching_faces`);
* `endpoints/search_photos.py` — the search endpoint flow (status updates,
  validation order, scan, throttled progress, final update);
* `endpoints/upload_collection.py` — filename normalization
  (`normalize_filename`), zip member listing (`open_zip_and_list_images`),
  per-member processing (`process_images`), and the index merge
  (`\x7b**existing, **new\x7d`);
* `app.py` — the legacy Flask pipeline (`stream_process_zip`,
  `process_image_from_zip`) with its own zip filter and upload policy.

Numeric model: the python code computes on IEEE float64 via numpy.  We model
embedding coordinates and thresholds as rationals (`ℚ`) and the cosine
similarity value as a real number (`ℝ`).  The float expression
`dot / (norm * norm)` is NaN exactly when either vector has zero norm (then
`dot = 0` as well, giving `0.0/0.0`), and every IEEE comparison against NaN is
false; the boolean decision `similarity > threshold` is therefore modelled by
an explicit zero-norm case returning `false`, and otherwise by a square-root
free rational decision that is proved (in `compare_embeddings_iff`) to agree
with the real-number comparison `similarity > threshold`.

String model: python string operations used by the code (`str.lower`,
`str.endswith`, `str.startswith`, `Path(...).name`, `re.sub` over a character
class, `str(int)`) are modelled as structurally recursive functions over the
underlying character lists, so that concrete runs evaluate by kernel
reduction.
-/

namespace FindPhotosOfMe

/-- A detected face as stored in the embeddings index: embedding vector,
gender (0 = female, 1 = male), optional age and bounding box
(`face_recognition_service.extract_embeddings`). -/
structure FaceRecord where
  embedding : List ℚ
  gender : Nat
  age : Option Int := none
  bbox : Option (List ℚ) := none
deriving DecidableEq, Repr

/-- Dot product of two embedding vectors (`np.dot` on equal-length 1-D
arrays; on unequal lengths numpy raises, so the claims below carry
equal-length hypotheses and this definition just truncates). -/
def dotP : List ℚ → List ℚ → ℚ
  | a :: as, b :: bs => a * b + dotP as bs
  | _, _ => 0

/-- Squared Euclidean norm of a vector, `np.linalg.norm(v) ** 2`. -/
def normSq (v : List ℚ) : ℚ := dotP v v

/-- Real-valued cosine similarity,
`np.dot(a, b) / (np.linalg.norm(a) * np.linalg.norm(b))`. -/
noncomputable def similarity (a b : List ℚ) : ℝ :=
  ((dotP a b : ℚ) : ℝ) / (Real.sqrt ((normSq a : ℚ) : ℝ) * Real.sqrt ((normSq b : ℚ) : ℝ))

/-- Square-root-free decision of `similarity a b > t` for vectors of nonzero
norm (obtained from the float comparison by clearing the positive
denominator and squaring with the appropriate sign analysis; proved
equivalent to the real comparison in `simGTb_iff`). -/
def simGTb (a b : List ℚ) (t : ℚ) : Bool :=
  let d := dotP a b
  let n := normSq a * normSq b
  if 0 ≤ t then decide (0 < d ∧ t ^ 2 * n < d ^ 2)
  else decide (0 ≤ d ∨ d ^ 2 < t ^ 2 * n)

/-- Boolean match decision of `compare_embeddings`
(`face_recognition_service.py` lines 86-96): the float code computes
`similarity = dot / (norm * norm)` and returns `similarity > threshold`.
When either norm is zero the float similarity is NaN (`0.0/0.0`) and the
comparison is false; otherwise it is the real comparison, decided without
square roots. -/
def compare_embeddings (ref target : List ℚ) (threshold : ℚ) : Bool :=
  if normSq ref = 0 ∨ normSq target = 0 then false
  else simGTb ref target threshold

/-- Inner loop of the search scan over one file's face list
(`search_photos.py` lines 127-141 and `find_matching_faces` lines 122-137):
skip faces of the wrong gender, call `compare_embeddings`, and on the first
match return it (the `break`). -/
def firstMatch (refE : List ℚ) (refG : Nat) (t : ℚ) : List FaceRecord → Option FaceRecord
  | [] => none
  | f :: fs =>
    if f.gender ≠ refG then firstMatch refE refG t fs
    else if compare_embeddings refE f.embedding t then some f
    else firstMatch refE refG t fs

/-- Outer loop of the search scan: one pass over the index entries, recording
`(filename, matched face)` for each entry whose face list produced a match
(the python code records `(filename, similarity)`; we keep the matched face
record, whose similarity is `similarity refE face.embedding`). -/
def scanIndex (refE : List ℚ) (refG : Nat) (t : ℚ)
    (data : List (String × List FaceRecord)) : List (String × FaceRecord) :=
  data.filterMap (fun e => (firstMatch refE refG t e.2).map (fun f => (e.1, f)))

/-- Square-root-free comparator deciding
`similarity refE e₁ ≥ similarity refE e₂` (used to model
`matches.sort(key=lambda x: x[1], reverse=True)`; python's stable sort in
descending order is a stable merge sort under this comparator). -/
def simGE (refE e₁ e₂ : List ℚ) : Bool :=
  let d₁ := dotP refE e₁
  let d₂ := dotP refE e₂
  if 0 ≤ d₂ ∧ d₁ < 0 then false
  else if 0 ≤ d₁ ∧ d₂ < 0 then true
  else if 0 ≤ d₁ ∧ 0 ≤ d₂ then decide (d₂ ^ 2 * normSq e₁ ≤ d₁ ^ 2 * normSq e₂)
  else decide (d₁ ^ 2 * normSq e₂ ≤ d₂ ^ 2 * normSq e₁)

/-- The full matching pass of the search pipeline: scan, then sort by
similarity descending (`search_photos.py` lines 123-158). -/
def find_matching_faces (refE : List ℚ) (refG : Nat) (t : ℚ)
    (data : List (String × List FaceRecord)) : List (String × FaceRecord) :=
  (scanIndex refE refG t data).mergeSort
    (fun p q => simGE refE p.2.embedding q.2.embedding)

/-- Characters kept unchanged by the sanitizer: the python character class
`[A-Za-z0-9._-]` from `re.sub` in `normalize_filename`. -/
def isAllowedChar (c : Char) : Bool :=
  (decide ('A' ≤ c) && decide (c ≤ 'Z')) ||
  (decide ('a' ≤ c) && decide (c ≤ 'z')) ||
  (decide ('0' ≤ c) && decide (c ≤ '9')) ||
  c == '.' || c == '_' || c == '-'

/-- Splitting a character list on a separator, python `str.split(sep)` for a
single-character separator. -/
def splitOnChar (sep : Char) : List Char → List (List Char)
  | [] => [[]]
  | c :: cs =>
    let r := splitOnChar sep cs
    if c = sep then [] :: r
    else
      match r with
      | [] => [[c]]
      | h :: rest => (c :: h) :: rest

/-- Last path component, python `pathlib.Path(filename).name`: parse on `/`,
drop empty and `.` components, take the last remaining component (or empty).
-/
def pathName (s : String) : String :=
  ⟨((splitOnChar '/' s.data).filter
      (fun t => !(t.isEmpty) && !(t == ['.']))).getLastD []⟩

/-- Character-wise sanitization,
`re.sub(r"[^A-Za-z0-9._-]", "_", base_name)`. -/
def sanitizeName (s : String) : String :=
  ⟨s.data.map (fun c => if isAllowedChar c then c else '_')⟩

/-- Sanitized basename with the empty-name fallback
(`upload_collection.normalize_filename` lines 46-49). -/
def sanitizedBase (filename : String) : String :=
  let s := sanitizeName (pathName filename)
  if s = "" then "file" else s

/-- Index of the last `.` in a character list, python `str.rfind('.')`
restricted to the found case. -/
def lastDotIdx : List Char → Option Nat
  | [] => none
  | c :: cs =>
    match lastDotIdx cs with
    | some i => some (i + 1)
    | none => if c = '.' then some 0 else none

/-- Stem/suffix split of a basename, python `Path(name).stem` and
`Path(name).suffix`: the suffix starts at the last dot provided that dot is
neither the leading character nor the trailing character; otherwise the stem
is the whole name and the suffix empty. -/
def splitStemExt (s : String) : String × String :=
  match lastDotIdx s.data with
  | some i =>
    if 0 < i ∧ i < s.data.length - 1 then (⟨s.data.take i⟩, ⟨s.data.drop i⟩)
    else (s, "")
  | none => (s, "")

/-- Decimal digit characters of a natural number (python `str(int)`), with
explicit structural fuel so that concrete values reduce by `rfl`. -/
def natStrAux : Nat → Nat → List Char
  | 0, _ => []
  | fuel + 1, n =>
    if n < 10 then [Nat.digitChar n]
    else natStrAux fuel (n / 10) ++ [Nat.digitChar (n % 10)]

/-- Decimal string of a natural number, python `str(counter)`. -/
def natStr (n : Nat) : String := ⟨natStrAux (n + 1) n⟩

/-- Decoding helper for proving `natStr` injective: read a digit string back
as a number. -/
def digitVal (l : List Char) : Nat :=
  l.foldl (fun a c => a * 10 + (c.toNat - 48)) 0

/-- Collision candidate `f"\x7bstem\x7d-\x7bcounter\x7d\x7bext\x7d"` from
`normalize_filename` line 60. -/
def candidateName (stem ext : String) (counter : Nat) : String :=
  stem ++ "-" ++ natStr counter ++ ext

/-- The `while True` counter search of `normalize_filename` lines 58-64,
expressed with structural fuel: try `candidateName stem ext c`,
`candidateName stem ext (c+1)`, … until one is not in `used`.  The python
loop always terminates because distinct counters give distinct candidates
and `used` is finite; `findFreeName` is invoked with enough fuel
(`used.length + 1`) for the fallback branch to be unreachable, which the
normalizer theorems prove. -/
def findFreeName (used : List String) (stem ext : String) : Nat → Nat → String
  | 0, c => candidateName stem ext c
  | fuel + 1, c =>
    if candidateName stem ext c ∈ used then findFreeName used stem ext fuel (c + 1)
    else candidateName stem ext c

/-- The filename normalizer `normalize_filename(filename, used_names)`
(`upload_collection.py` lines 39-64).  The python function mutates the
`used_names` set; we return the produced name together with the grown set
(represented as a list used only through membership). -/
def normalize_filename (filename : String) (used : List String) : String × List String :=
  if sanitizedBase filename ∈ used then
    (findFreeName used (splitStemExt (sanitizedBase filename)).1
        (splitStemExt (sanitizedBase filename)).2 (used.length + 1) 1,
      findFreeName used (splitStemExt (sanitizedBase filename)).1
        (splitStemExt (sanitizedBase filename)).2 (used.length + 1) 1 :: used)
  else (sanitizedBase filename, sanitizedBase filename :: used)

/-- Processing a list of member paths in order against a shared used-name
set, as `process_images` does across one archive. -/
def normalizeRun (members : List String) (used : List String) : List String × List String :=
  match members with
  | [] => ([], used)
  | m :: ms =>
    let r := normalize_filename m used
    let rest := normalizeRun ms r.2
    (r.1 :: rest.1, rest.2)

/-- Association-list lookup with python-dict semantics (first binding of the
key; index objects parsed from JSON have unique keys). -/
def indexLookup (k : String) (l : List (String × α)) : Option α :=
  (l.find? (fun e => e.1 == k)).map Prod.snd

/-- Python dict merge `\x7b**existing, **new\x7d`
(`upload_collection.py` lines 268 and 420): existing keys keep their
position but take the new run's value on collision, then the new run's
fresh keys are appended in their own order. -/
def dictMerge (old new : List (String × α)) : List (String × α) :=
  old.map (fun e => (e.1, (indexLookup e.1 new).getD e.2)) ++
    new.filter (fun e => (indexLookup e.1 old).isNone)

/-- The `imagesCount` written on completion,
`len(merged_embeddings)` (`upload_collection.py` lines 291-295 and 442-446).
-/
def completionImagesCount (old run : List (String × α)) : Nat :=
  (dictMerge old run).length

/-- Python dict item assignment `d[k] = v`: overwrite in place if the key is
present, append otherwise (`embeddings_data[normalized_name] = embeddings`).
-/
def dictAssign (l : List (String × α)) (k : String) (v : α) : List (String × α) :=
  if (indexLookup k l).isSome then l.map (fun e => if e.1 == k then (k, v) else e)
  else l ++ [(k, v)]

/-- Python `str.endswith(suffix)`. -/
def strEndsWith (s suffix : String) : Bool :=
  suffix.data.isSuffixOf s.data

/-- Python `str.startswith(p)`. -/
def strStartsWith (s p : String) : Bool :=
  p.data.isPrefixOf s.data

/-- Python `str.lower()` (faithful on the ASCII names involved here). -/
def lowerStr (s : String) : String :=
  ⟨s.data.map Char.toLower⟩

/-- The zip member filter of `open_zip_and_list_images`
(`upload_collection.py` lines 67-75): keep names whose lowercased form ends
with one of the six tuple entries (the three uppercase entries are dead
after `.lower()`) and which do not start with `__MACOSX`; the zip file
handle itself is an external collaborator, so the unpacker is modelled on
the archive's member-name list. -/
def open_zip_and_list_images (names : List String) : List String :=
  names.filter (fun n =>
    ([".jpg", ".jpeg", ".png", ".JPG", ".JPEG", ".PNG"].any
        (fun e => strEndsWith (lowerStr n) e)) &&
      !(strStartsWith n "__MACOSX"))

/-- The zip member filter of the legacy Flask pipeline
(`app.py` lines 149-152): lowercased extension in jpg/jpeg/png/bmp, and
neither a `__MACOSX` path nor a dot-prefixed path. -/
def stream_zip_image_files (names : List String) : List String :=
  names.filter (fun n =>
    ([".jpg", ".jpeg", ".png", ".bmp"].any (fun e => strEndsWith (lowerStr n) e)) &&
      !(strStartsWith n "__MACOSX") && !(strStartsWith n "."))

/-- Membership predicate written from the spec's words for claim C5
(section 4.1): "member names whose lowercase extension is one of a fixed
allow-list (jpg, jpeg, png, bmp) excluding any member whose path begins
with a platform-junk marker or a dot". -/
def specC5Allowed (n : String) : Prop :=
  (∃ e ∈ ["jpg", "jpeg", "png", "bmp"],
      ∃ p, (lowerStr n).data = p ++ ('.' :: e.data)) ∧
    strStartsWith n "__MACOSX" = false ∧ strStartsWith n "." = false

/-- State threaded through `process_images` (`upload_collection.py` lines
91-145): the per-run result map, processed counter, preview keys, used-name
set, plus observation logs of the image uploads performed and of the
processed-counts passed to `on_progress` (each such call spawns one
collection-status update, lines 136-137 and 249-254). -/
structure IngestState where
  embeddings_data : List (String × List FaceRecord) := []
  processed_count : Nat := 0
  preview_image_keys : List String := []
  used_names : List String := []
  uploads : List String := []
  progress_events : List Nat := []
deriving DecidableEq, Repr

/-- One iteration of the member loop of `process_images` (lines 111-143),
parametrised by the embedding extractor (an external collaborator mapping a
member to its detected faces; reading a member's bytes from the archive is
deterministic, so the extractor is a function of the member name).  A
member with zero faces is skipped entirely (`continue`, line 119); the
exception handler's skip (line 141) is the same no-op and is not modelled
separately. -/
def process_member (collection_id : String) (extract : String → List FaceRecord)
    (st : IngestState) (member : String) : IngestState :=
  let embeddings := extract member
  if embeddings = [] then st
  else
    let r := normalize_filename member st.used_names
    let r2_key := collection_id ++ "/" ++ r.1
    let pc := st.processed_count + 1
    { embeddings_data := dictAssign st.embeddings_data r.1 embeddings
      processed_count := pc
      preview_image_keys :=
        if st.preview_image_keys.length < 50 then st.preview_image_keys ++ [r2_key]
        else st.preview_image_keys
      used_names := r.2
      uploads := st.uploads ++ [r2_key]
      progress_events := st.progress_events ++ [pc] }

/-- The member loop of `process_images` over the archive's image files. -/
def process_images (collection_id : String) (extract : String → List FaceRecord)
    (image_files : List String) : IngestState :=
  image_files.foldl (process_member collection_id extract) {}

/-- The legacy Flask per-image worker `process_image_from_zip`
(`app.py` lines 71-132): `none` from the extractor models an undecodable
image (no upload, no result); otherwise the image is uploaded to
`base_path/images/name` whether or not faces were found (lines 88-98
explicitly upload on the zero-face branch), and the result record carries
the detected faces. -/
def legacy_process_image (extract : String → Option (List FaceRecord))
    (base_path image_name : String) :
    Option (String × List FaceRecord) × List String :=
  match extract image_name with
  | none => (none, [])
  | some faces => (some (image_name, faces), [base_path ++ "/images/" ++ image_name])

/-- One step of the legacy Flask consolidation loop of `stream_process_zip`
(`app.py` lines 161-187): the member is processed under its basename; only
results with at least one face are appended to the consolidated embeddings
(`faces_count > 0`, line 184), while the upload log collects every upload
performed. -/
def legacy_stream_step (extract : String → Option (List FaceRecord))
    (base_path : String)
    (acc : List (String × List FaceRecord) × List String) (m : String) :
    List (String × List FaceRecord) × List String :=
  let r := legacy_process_image extract base_path (pathName m)
  (acc.1 ++
      (match r.1 with
        | some e => if e.2 ≠ [] then [e] else []
        | none => []),
    acc.2 ++ r.2)

def legacy_stream_process (extract : String → Option (List FaceRecord))
    (base_path : String) (members : List String) :
    List (String × List FaceRecord) × List String :=
  members.foldl (legacy_stream_step extract base_path) ([], [])

/-- A SearchRequest record as read from the metadata store
(`convex_service.get_search_request`): only the `collectionId` field is
consulted by the endpoint. -/
structure SearchRequestRec where
  collectionId : Option String
deriving DecidableEq, Repr

/-- A Collection record as read from the metadata store: the endpoint
consults `status` and `imagesCount`. -/
structure CollectionRec where
  status : String
  imagesCount : Nat := 0
deriving DecidableEq, Repr

/-- An update issued to the SearchRequest record
(`convex_service.update_search_request`), with its optional keyword
arguments. -/
structure SearchEvent where
  status : String
  imagesFound : Option (List String) := none
  totalImages : Option Nat := none
  processedImages : Option Nat := none
deriving DecidableEq, Repr

/-- Outcome of the endpoint: an `HTTPException` with its status code, or the
success response. -/
inductive SearchOutcome
  | httpError (code : Nat)
  | success
deriving DecidableEq, Repr

/-- The processed-counts at which the search scan emits a throttled progress
update (`search_photos.py` line 146): every tenth file and the final file. -/
def searchProgressCounts (n : Nat) : List Nat :=
  ((List.range n).map (fun i => i + 1)).filter (fun c => c % 10 == 0 || c == n)

/-- The `search_photos` endpoint flow (`search_photos.py` lines 48-185),
parametrised by its external collaborators: the SearchRequest fetched by id,
the collection lookup, the faces extracted from the reference photo, and the
downloaded embeddings index (`none` models an absent `embeddings.json`).
Returned are the outcome and the ordered list of SearchRequest updates
issued (including the fire-and-forget threaded ones, in issue order).  Note
the `processing` update (lines 62-67) is issued before the collection
status check (lines 69-78). -/
def search_photos (sr? : Option SearchRequestRec)
    (getCollection : String → Option CollectionRec)
    (refFaces : List FaceRecord)
    (index? : Option (List (String × List FaceRecord)))
    (threshold : ℚ) : SearchOutcome × List SearchEvent :=
  match sr? with
  | none => (.httpError 404, [])
  | some sr =>
    match sr.collectionId with
    | none => (.httpError 400, [])
    | some cid =>
      let ev0 : SearchEvent := { status := "processing" }
      match getCollection cid with
      | none => (.httpError 404, [ev0])
      | some coll =>
        if coll.status ≠ "complete" then (.httpError 400, [ev0])
        else
          match refFaces with
          | [] => (.httpError 400, [ev0])
          | ref :: _ =>
            match index? with
            | none => (.httpError 404, [ev0])
            | some data =>
              let ev1 : SearchEvent :=
                { status := "processing", totalImages := some coll.imagesCount,
                  processedImages := some 0 }
              let progressEvs := (searchProgressCounts data.length).map
                (fun c => { status := "processing", processedImages := some c : SearchEvent })
              let matchList := find_matching_faces ref.embedding ref.gender threshold data
              let images := matchList.map (fun p => cid ++ "/" ++ p.1)
              let evFinal : SearchEvent :=
                { status := "complete", imagesFound := some images,
                  totalImages := some coll.imagesCount,
                  processedImages := some coll.imagesCount }
              (.success, ev0 :: ev1 :: (progressEvs ++ [evFinal]))

theorem dotP_self_nonneg (v : List ℚ) : 0 ≤ dotP v v := by
  induction v with
  | nil => simp [dotP]
  | cons a as ih =>
    have : 0 ≤ a * a := mul_self_nonneg a
    simpa [dotP] using add_nonneg this ih

theorem normSq_nonneg (v : List ℚ) : 0 ≤ normSq v := dotP_self_nonneg v

theorem simGTb_iff (a b : List ℚ) (t : ℚ)
    (ha : normSq a ≠ 0) (hb : normSq b ≠ 0) :
    simGTb a b t = true ↔ t < similarity a b := by
  have hA : (0 : ℚ) < normSq a := lt_of_le_of_ne (normSq_nonneg a) (Ne.symm ha)
  have hB : (0 : ℚ) < normSq b := lt_of_le_of_ne (normSq_nonneg b) (Ne.symm hb)
  have hAR : (0 : ℝ) < ((normSq a : ℚ) : ℝ) := by exact_mod_cast hA
  have hBR : (0 : ℝ) < ((normSq b : ℚ) : ℝ) := by exact_mod_cast hB
  set s : ℝ := Real.sqrt ((normSq a : ℚ) : ℝ) * Real.sqrt ((normSq b : ℚ) : ℝ) with hs
  have hspos : 0 < s := mul_pos (Real.sqrt_pos.mpr hAR) (Real.sqrt_pos.mpr hBR)
  have hssq : s ^ 2 = ((normSq a : ℚ) : ℝ) * ((normSq b : ℚ) : ℝ) := by
    rw [hs, mul_pow, Real.sq_sqrt hAR.le, Real.sq_sqrt hBR.le]
  have key : (t < similarity a b) ↔ ((t : ℝ) * s < ((dotP a b : ℚ) : ℝ)) := by
    unfold similarity
    rw [← hs]
    exact lt_div_iff₀ hspos
  rw [key]
  set D : ℝ := ((dotP a b : ℚ) : ℝ) with hD
  have hcast1 : (0 < dotP a b) ↔ (0 < D) := by rw [hD]; exact_mod_cast Iff.rfl
  have hcast0 : (0 ≤ dotP a b) ↔ (0 ≤ D) := by rw [hD]; exact_mod_cast Iff.rfl
  have hcast2 : (t ^ 2 * (normSq a * normSq b) < (dotP a b) ^ 2) ↔
      ((t : ℝ) ^ 2 * (((normSq a : ℚ) : ℝ) * ((normSq b : ℚ) : ℝ)) < D ^ 2) := by
    rw [hD]
    constructor
    · intro h
      have := (Rat.cast_lt (K := ℝ)).mpr h
      push_cast at this
      linarith
    · intro h
      have : (((t ^ 2 * (normSq a * normSq b) : ℚ)) : ℝ) < (((dotP a b) ^ 2 : ℚ) : ℝ) := by
        push_cast
        linarith
      exact_mod_cast this
  have hcast3 : ((dotP a b) ^ 2 < t ^ 2 * (normSq a * normSq b)) ↔
      (D ^ 2 < (t : ℝ) ^ 2 * (((normSq a : ℚ) : ℝ) * ((normSq b : ℚ) : ℝ))) := by
    rw [hD]
    constructor
    · intro h
      have := (Rat.cast_lt (K := ℝ)).mpr h
      push_cast at this
      linarith
    · intro h
      have : (((dotP a b) ^ 2 : ℚ) : ℝ) < (((t ^ 2 * (normSq a * normSq b) : ℚ)) : ℝ) := by
        push_cast
        linarith
      exact_mod_cast this
  rcases le_or_lt 0 t with hT | hT
  · have hTR : (0 : ℝ) ≤ (t : ℝ) := by exact_mod_cast hT
    have hts : 0 ≤ (t : ℝ) * s := mul_nonneg hTR hspos.le
    simp only [simGTb, if_pos hT, decide_eq_true_eq, hcast1, hcast2]
    constructor
    · rintro ⟨hdpos, hsq⟩
      rw [← hssq, ← mul_pow] at hsq
      nlinarith
    · intro h
      have hdpos : 0 < D := lt_of_le_of_lt hts h
      refine ⟨hdpos, ?_⟩
      rw [← hssq, ← mul_pow]
      nlinarith
  · have hTR : (t : ℝ) < 0 := by exact_mod_cast hT
    have hts : (t : ℝ) * s < 0 := mul_neg_of_neg_of_pos hTR hspos
    simp only [simGTb, if_neg (not_le.mpr hT), decide_eq_true_eq, hcast0, hcast3]
    constructor
    · rintro (h0 | hsq)
      · linarith
      · rw [← hssq, ← mul_pow] at hsq
        rcases le_or_lt 0 D with h0 | hneg
        · linarith
        · nlinarith
    · intro h
      rcases le_or_lt 0 D with h0 | hneg
      · exact Or.inl h0
      · right
        rw [← hssq, ← mul_pow]
        nlinarith

/-- Equivalence of the modelled boolean decision with the real comparison:
for vectors of nonzero norm, `compare_embeddings` returns `true` exactly when
the cosine similarity strictly exceeds the threshold. -/
theorem compare_embeddings_iff (ref target : List ℚ) (t : ℚ)
    (ha : normSq ref ≠ 0) (hb : normSq target ≠ 0) :
    compare_embeddings ref target t = true ↔ t < similarity ref target := by
  rw [compare_embeddings, if_neg (by tauto)]
  exact simGTb_iff ref target t ha hb

theorem firstMatch_some_spec (refE : List ℚ) (refG : Nat) (t : ℚ)
    (faces : List FaceRecord) (f : FaceRecord)
    (h : firstMatch refE refG t faces = some f) :
    f ∈ faces ∧ f.gender = refG ∧ compare_embeddings refE f.embedding t = true := by
  induction faces with
  | nil => simp [firstMatch] at h
  | cons g gs ih =>
    by_cases hg : g.gender ≠ refG
    · rw [firstMatch, if_pos hg] at h
      have := ih h
      exact ⟨List.mem_cons_of_mem g this.1, this.2⟩
    · rw [firstMatch, if_neg hg] at h
      push_neg at hg
      by_cases hcmp : compare_embeddings refE g.embedding t
      · rw [if_pos hcmp] at h
        cases h
        exact ⟨List.mem_cons_self _ _, hg, hcmp⟩
      · rw [if_neg hcmp] at h
        have := ih h
        exact ⟨List.mem_cons_of_mem g this.1, this.2⟩

theorem firstMatch_isSome_iff (refE : List ℚ) (refG : Nat) (t : ℚ)
    (faces : List FaceRecord) :
    (firstMatch refE refG t faces).isSome = true ↔
      ∃ f ∈ faces, f.gender = refG ∧ compare_embeddings refE f.embedding t = true := by
  induction faces with
  | nil => simp [firstMatch]
  | cons g gs ih =>
    by_cases hg : g.gender ≠ refG
    · rw [firstMatch, if_pos hg]
      rw [ih]
      constructor
      · rintro ⟨f, hf, hspec⟩
        exact ⟨f, List.mem_cons_of_mem g hf, hspec⟩
      · rintro ⟨f, hf, hspec⟩
        rcases List.mem_cons.mp hf with rfl | hf
        · exact absurd hspec.1 hg
        · exact ⟨f, hf, hspec⟩
    · rw [firstMatch, if_neg hg]
      push_neg at hg
      by_cases hcmp : compare_embeddings refE g.embedding t
      · rw [if_pos hcmp]
        simp only [Option.isSome_some, true_iff]
        exact ⟨g, List.mem_cons_self g gs, hg, hcmp⟩
      · rw [if_neg hcmp]
        rw [ih]
        constructor
        · rintro ⟨f, hf, hspec⟩
          exact ⟨f, List.mem_cons_of_mem g hf, hspec⟩
        · rintro ⟨f, hf, hspec⟩
          rcases List.mem_cons.mp hf with rfl | hf
          · exact absurd hspec.2 hcmp
          · exact ⟨f, hf, hspec⟩

/-- The face returned by the inner loop is the first qualifying face in the
file's face sequence: everything before it fails the gender check or the
similarity check. -/
theorem firstMatch_first (refE : List ℚ) (refG : Nat) (t : ℚ)
    (faces : List FaceRecord) (f : FaceRecord)
    (h : firstMatch refE refG t faces = some f) :
    ∃ l₁ l₂, faces = l₁ ++ f :: l₂ ∧
      (f.gender = refG ∧ compare_embeddings refE f.embedding t = true) ∧
      ∀ g ∈ l₁, ¬(g.gender = refG ∧ compare_embeddings refE g.embedding t = true) := by
  induction faces with
  | nil => simp [firstMatch] at h
  | cons g gs ih =>
    by_cases hg : g.gender ≠ refG
    · rw [firstMatch, if_pos hg] at h
      obtain ⟨l₁, l₂, heq, hf, hprev⟩ := ih h
      refine ⟨g :: l₁, l₂, by simp [heq], hf, ?_⟩
      intro x hx
      rcases List.mem_cons.mp hx with rfl | hx
      · exact fun hc => hg hc.1
      · exact hprev x hx
    · rw [firstMatch, if_neg hg] at h
      push_neg at hg
      by_cases hcmp : compare_embeddings refE g.embedding t
      · rw [if_pos hcmp] at h
        cases h
        exact ⟨[], gs, rfl, ⟨hg, hcmp⟩, by simp⟩
      · rw [if_neg hcmp] at h
        obtain ⟨l₁, l₂, heq, hf, hprev⟩ := ih h
        refine ⟨g :: l₁, l₂, by simp [heq], hf, ?_⟩
        intro x hx
        rcases List.mem_cons.mp hx with rfl | hx
        · exact fun hc => hcmp hc.2
        · exact hprev x hx

theorem scanIndex_mem (refE : List ℚ) (refG : Nat) (t : ℚ)
    (data : List (String × List FaceRecord)) (p : String × FaceRecord) :
    p ∈ scanIndex refE refG t data ↔
      ∃ faces, (p.1, faces) ∈ data ∧ firstMatch refE refG t faces = some p.2 := by
  unfold scanIndex
  rw [List.mem_filterMap]
  constructor
  · rintro ⟨e, he, hmap⟩
    rcases hopt : firstMatch refE refG t e.2 with _ | f
    · rw [hopt] at hmap; simp at hmap
    · rw [hopt] at hmap
      have hp : p = (e.1, f) := by
        have h2 : some (e.1, f) = some p := hmap
        exact (Option.some.inj h2).symm
      subst hp
      exact ⟨e.2, by simpa using he, by simpa using hopt⟩
  · rintro ⟨faces, hmem, hfm⟩
    exact ⟨(p.1, faces), hmem, by rw [hfm]; rfl⟩

/-- The filenames of the scan output form a sublist of the index's keys. -/
theorem scanIndex_keys_sublist (refE : List ℚ) (refG : Nat) (t : ℚ)
    (data : List (String × List FaceRecord)) :
    ((scanIndex refE refG t data).map Prod.fst).Sublist (data.map Prod.fst) := by
  induction data with
  | nil => simp [scanIndex]
  | cons e rest ih =>
    rw [scanIndex, List.filterMap_cons]
    rcases hopt : firstMatch refE refG t e.2 with _ | f
    · simpa [scanIndex] using ih.cons e.1
    · simpa [scanIndex] using ih.cons₂ e.1

/-- The sorted match list is a permutation of the scan output. -/
theorem find_matching_faces_perm (refE : List ℚ) (refG : Nat) (t : ℚ)
    (data : List (String × List FaceRecord)) :
    (find_matching_faces refE refG t data).Perm (scanIndex refE refG t data) :=
  List.mergeSort_perm _ _

theorem firstMatch_eq_none (refE : List ℚ) (refG : Nat) (t : ℚ)
    (faces : List FaceRecord)
    (h : ∀ f ∈ faces, compare_embeddings refE f.embedding t = false) :
    firstMatch refE refG t faces = none := by
  induction faces with
  | nil => rfl
  | cons g gs ih =>
    have htail : firstMatch refE refG t gs = none :=
      ih (fun f hf => h f (List.mem_cons_of_mem g hf))
    by_cases hg : g.gender ≠ refG
    · rw [firstMatch, if_pos hg]; exact htail
    · rw [firstMatch, if_neg hg, if_neg, htail]
      simp [h g (List.mem_cons_self g gs)]

/-- C1: In the scan over the index, with a reference face of nonzero norm
and candidate faces of nonzero norm and matching dimension, a candidate
face is recorded as its file's match only if its gender equals the
reference gender and its cosine similarity strictly exceeds the threshold
(default 0.6), and a file records a match exactly when such a qualifying
candidate exists in it; in particular a candidate whose similarity equals
the threshold exactly is never recorded, and a candidate of mismatched
gender is never recorded regardless of similarity. -/
theorem C1_match_iff_gender_and_similarity (refE : List ℚ) (refG : Nat) (t : ℚ)
    (faces : List FaceRecord)
    (href : normSq refE ≠ 0)
    (hnorm : ∀ f ∈ faces, normSq f.embedding ≠ 0)
    (_hlen : ∀ f ∈ faces, f.embedding.length = refE.length) :
    (∀ f, firstMatch refE refG t faces = some f →
        f ∈ faces ∧ f.gender = refG ∧ t < similarity refE f.embedding) ∧
    ((firstMatch refE refG t faces).isSome = true ↔
        ∃ f ∈ faces, f.gender = refG ∧ t < similarity refE f.embedding) ∧
    (∀ f, firstMatch refE refG t faces = some f → similarity refE f.embedding ≠ t) ∧
    (∀ f, f.gender ≠ refG → firstMatch refE refG t faces ≠ some f) := by
  have hbr : ∀ f ∈ faces,
      (compare_embeddings refE f.embedding t = true ↔ t < similarity refE f.embedding) :=
    fun f hf => compare_embeddings_iff refE f.embedding t href (hnorm f hf)
  refine ⟨?_, ?_, ?_, ?_⟩
  · intro f hsome
    obtain ⟨hmem, hg, hcmp⟩ := firstMatch_some_spec _ _ _ _ _ hsome
    exact ⟨hmem, hg, (hbr f hmem).mp hcmp⟩
  · rw [firstMatch_isSome_iff]
    constructor
    · rintro ⟨f, hf, hg, hcmp⟩
      exact ⟨f, hf, hg, (hbr f hf).mp hcmp⟩
    · rintro ⟨f, hf, hg, hsim⟩
      exact ⟨f, hf, hg, (hbr f hf).mpr hsim⟩
  · intro f hsome
    obtain ⟨hmem, _, hcmp⟩ := firstMatch_some_spec _ _ _ _ _ hsome
    exact ne_of_gt ((hbr f hmem).mp hcmp)
  · intro f hg hsome
    obtain ⟨_, hg2, _⟩ := firstMatch_some_spec _ _ _ _ _ hsome
    exact hg hg2

/-- Witness for C1 at a concrete input: reference `[1,0]` (male), one male
candidate `[1,0]` of similarity 1, threshold 3/5. -/
theorem C1_witness :
    (normSq [(1 : ℚ), 0] ≠ 0) ∧
    (∀ f ∈ [({ embedding := [1, 0], gender := 1 } : FaceRecord)],
        normSq f.embedding ≠ 0) ∧
    (∀ f ∈ [({ embedding := [1, 0], gender := 1 } : FaceRecord)],
        f.embedding.length = [(1 : ℚ), 0].length) ∧
    ((∀ f, firstMatch [(1 : ℚ), 0] 1 (3 / 5)
          [({ embedding := [1, 0], gender := 1 } : FaceRecord)] = some f →
        f ∈ [({ embedding := [1, 0], gender := 1 } : FaceRecord)] ∧
          f.gender = 1 ∧ (3 / 5 : ℚ) < similarity [(1 : ℚ), 0] f.embedding) ∧
      ((firstMatch [(1 : ℚ), 0] 1 (3 / 5)
            [({ embedding := [1, 0], gender := 1 } : FaceRecord)]).isSome = true ↔
        ∃ f ∈ [({ embedding := [1, 0], gender := 1 } : FaceRecord)],
          f.gender = 1 ∧ (3 / 5 : ℚ) < similarity [(1 : ℚ), 0] f.embedding) ∧
      (∀ f, firstMatch [(1 : ℚ), 0] 1 (3 / 5)
            [({ embedding := [1, 0], gender := 1 } : FaceRecord)] = some f →
          similarity [(1 : ℚ), 0] f.embedding ≠ (3 / 5 : ℚ)) ∧
      (∀ f : FaceRecord, f.gender ≠ 1 →
          firstMatch [(1 : ℚ), 0] 1 (3 / 5)
            [({ embedding := [1, 0], gender := 1 } : FaceRecord)] ≠ some f)) := by
  refine ⟨?_, ?_, ?_, ?_⟩
  · norm_num [normSq, dotP]
  · intro f hf
    simp only [List.mem_singleton] at hf
    subst hf
    norm_num [normSq, dotP]
  · intro f hf
    simp only [List.mem_singleton] at hf
    subst hf
    rfl
  · exact C1_match_iff_gender_and_similarity [(1 : ℚ), 0] 1 (3 / 5)
      [({ embedding := [1, 0], gender := 1 } : FaceRecord)]
      (by norm_num [normSq, dotP])
      (by intro f hf; simp only [List.mem_singleton] at hf; subst hf; norm_num [normSq, dotP])
      (by intro f hf; simp only [List.mem_singleton] at hf; subst hf; rfl)

/-- C9: A pair of embedding vectors of which either has zero norm is never
reported as a match: `compare_embeddings` returns `false` on it (the NaN
comparison, rather than a propagated division result, decides no-match),
a zero-norm candidate face never appears in the match list, and a
zero-norm reference embedding produces an empty match list. -/
theorem C9_zero_norm_is_no_match :
    (∀ (a b : List ℚ) (t : ℚ), normSq a = 0 ∨ normSq b = 0 →
        compare_embeddings a b t = false) ∧
    (∀ (refE : List ℚ) (refG : Nat) (t : ℚ)
        (data : List (String × List FaceRecord)) (p : String × FaceRecord),
        normSq p.2.embedding = 0 → p ∉ find_matching_faces refE refG t data) ∧
    (∀ (refE : List ℚ) (refG : Nat) (t : ℚ)
        (data : List (String × List FaceRecord)),
        normSq refE = 0 → find_matching_faces refE refG t data = []) := by
  have hcmp : ∀ (a b : List ℚ) (t : ℚ), normSq a = 0 ∨ normSq b = 0 →
      compare_embeddings a b t = false := by
    intro a b t h
    rw [compare_embeddings, if_pos h]
  refine ⟨hcmp, ?_, ?_⟩
  · intro refE refG t data p hzero hmem
    have hscan : p ∈ scanIndex refE refG t data :=
      (find_matching_faces_perm refE refG t data).mem_iff.mp hmem
    obtain ⟨faces, _, hfm⟩ := (scanIndex_mem refE refG t data p).mp hscan
    obtain ⟨_, _, hc⟩ := firstMatch_some_spec _ _ _ _ _ hfm
    rw [hcmp refE p.2.embedding t (Or.inr hzero)] at hc
    exact Bool.false_ne_true hc
  · intro refE refG t data hzero
    have hscan : scanIndex refE refG t data = [] := by
      rw [scanIndex, List.filterMap_eq_nil_iff]
      intro e _
      rw [firstMatch_eq_none refE refG t e.2
        (fun f _ => hcmp refE f.embedding t (Or.inl hzero))]
      rfl
    rw [find_matching_faces, hscan, List.mergeSort_nil]

/-- Witness for C9 at a concrete input: the zero vector against `[1]`. -/
theorem C9_witness :
    normSq [(0 : ℚ), 0] = 0 ∧
    compare_embeddings [(0 : ℚ), 0] [(1 : ℚ)] (3 / 5) = false ∧
    find_matching_faces [(0 : ℚ), 0] 1 (3 / 5)
      [("a", [{ embedding := [1], gender := 1 }])] = [] := by
  have h0 : normSq [(0 : ℚ), 0] = 0 := by norm_num [normSq, dotP]
  exact ⟨h0,
    C9_zero_norm_is_no_match.1 [(0 : ℚ), 0] [(1 : ℚ)] (3 / 5) (Or.inl h0),
    C9_zero_norm_is_no_match.2.2 [(0 : ℚ), 0] 1 (3 / 5)
      [("a", [{ embedding := [1], gender := 1 }])] h0⟩

/-- C3: The index merge `\x7b**existing, **new\x7d` is key-wise override
with the new run winning: a key bound in the new run's map takes the new
value, any other key keeps the previously persisted value; in particular
merging a map binding `x` to a new value into one binding `x` to an old
value yields the new binding. -/
theorem C3_merge_new_run_wins :
    (∀ (α : Type) (old new : List (String × α)) (k : String),
        indexLookup k (dictMerge old new) =
          if (indexLookup k new).isSome then indexLookup k new
          else indexLookup k old) ∧
    dictMerge [("x", [({ embedding := [2], gender := 0 } : FaceRecord)])]
        [("x", [({ embedding := [1], gender := 1 } : FaceRecord)])] =
      [("x", [({ embedding := [1], gender := 1 } : FaceRecord)])] := by
  constructor
  · intro α old new k
    have hfilter : ∀ (l : List (String × α)) (r : String × α → Bool),
        (∀ e : String × α, (e.1 == k) = true → r e = true) →
        List.find? (fun e => e.1 == k) (l.filter r) =
          List.find? (fun e => e.1 == k) l := by
      intro l r hr
      induction l with
      | nil => rfl
      | cons e rest ih =>
        rw [List.filter_cons]
        by_cases hq : (e.1 == k) = true
        · rw [if_pos (hr e hq), List.find?_cons, List.find?_cons, hq]
        · have hq' : (e.1 == k) = false := by
            simpa using hq
          by_cases hrr : r e = true
          · rw [if_pos hrr, List.find?_cons, List.find?_cons, hq']
            exact ih
          · rw [if_neg hrr, List.find?_cons, hq']
            exact ih
    have hcomp : ((fun (e : String × α) => e.1 == k) ∘
        fun (e : String × α) => (e.1, (indexLookup e.1 new).getD e.2)) =
          fun (e : String × α) => e.1 == k := rfl
    rw [dictMerge, indexLookup, List.find?_append, List.find?_map, hcomp]
    rcases hold : List.find? (fun e : String × α => e.1 == k) old with _ | e₀
    · have hfil : List.find? (fun e : String × α => e.1 == k)
          (new.filter (fun e => (indexLookup e.1 old).isNone)) =
            List.find? (fun e : String × α => e.1 == k) new := by
        apply hfilter
        intro e he
        have hek : e.1 = k := by
          simpa using he
        rw [hek, indexLookup, hold]
        rfl
      rw [Option.map_none', Option.none_or, hfil]
      have holdlk : indexLookup k old = none := by
        rw [indexLookup, hold]
        rfl
      rw [holdlk]
      rcases h : List.find? (fun e : String × α => e.1 == k) new with _ | v
      · simp [indexLookup, h]
      · simp [indexLookup, h]
    · have he₀ : e₀.1 = k := by
        simpa using List.find?_some hold
      rw [Option.map_some', Option.or_some]
      have holdlk : indexLookup k old = some e₀.2 := by
        rw [indexLookup, hold]
        rfl
      rw [he₀, holdlk]
      rcases h : indexLookup k new with _ | v
      · simp [h]
      · simp [h]
  · rfl

/-- C2: Under unique index keys (a python dict guarantee) and well-formed
embeddings, the search pipeline's match list has at most one pair per
filename, and a recorded pair carries the first face of its file's face
sequence that qualifies (gender match, similarity strictly above
threshold) — every earlier face fails one of the two tests; moreover the
first qualifying face need not be the best-scoring qualifying face of the
file, exhibited by a concrete index where the recorded face scores 4/5 and
a later face of the same file scores 1. -/
theorem C2_first_qualifying_face_per_file :
    (∀ (refE : List ℚ) (refG : Nat) (t : ℚ)
        (data : List (String × List FaceRecord)),
      (data.map Prod.fst).Nodup →
      normSq refE ≠ 0 →
      (∀ e ∈ data, ∀ f ∈ e.2, normSq f.embedding ≠ 0) →
      (∀ fn, ((find_matching_faces refE refG t data).map Prod.fst).count fn ≤ 1) ∧
      (∀ p ∈ find_matching_faces refE refG t data,
        ∃ faces l₁ l₂, (p.1, faces) ∈ data ∧ faces = l₁ ++ p.2 :: l₂ ∧
          p.2.gender = refG ∧ t < similarity refE p.2.embedding ∧
          ∀ g ∈ l₁, ¬(g.gender = refG ∧ t < similarity refE g.embedding))) ∧
    (∃ (refE : List ℚ) (refG : Nat) (t : ℚ)
        (data : List (String × List FaceRecord)) (p : String × FaceRecord)
        (better : FaceRecord) (faces : List FaceRecord),
      find_matching_faces refE refG t data = [p] ∧ (p.1, faces) ∈ data ∧
        better ∈ faces ∧ better.gender = refG ∧
        t < similarity refE better.embedding ∧
        similarity refE p.2.embedding < similarity refE better.embedding) := by
  constructor
  · intro refE refG t data hkeys href hnorms
    have hperm := find_matching_faces_perm refE refG t data
    constructor
    · intro fn
      have hcount := (hperm.map Prod.fst).count_eq fn
      rw [hcount]
      have hnodup : ((scanIndex refE refG t data).map Prod.fst).Nodup :=
        (scanIndex_keys_sublist refE refG t data).nodup hkeys
      exact List.nodup_iff_count_le_one.mp hnodup fn
    · intro p hp
      have hscan : p ∈ scanIndex refE refG t data := hperm.mem_iff.mp hp
      obtain ⟨faces, hfd, hfm⟩ := (scanIndex_mem refE refG t data p).mp hscan
      obtain ⟨l₁, l₂, heq, ⟨hg, hcmp⟩, hprev⟩ := firstMatch_first _ _ _ _ _ hfm
      have hmemf : p.2 ∈ faces := by
        rw [heq]
        exact List.mem_append_right l₁ (List.mem_cons_self _ _)
      have hn2 := hnorms (p.1, faces) hfd p.2 hmemf
      refine ⟨faces, l₁, l₂, hfd, heq, hg,
        (compare_embeddings_iff _ _ _ href hn2).mp hcmp, ?_⟩
      intro g hg1 hcontra
      have hgmem : g ∈ faces := by
        rw [heq]
        exact List.mem_append_left _ hg1
      have hng := hnorms (p.1, faces) hfd g hgmem
      exact hprev g hg1 ⟨hcontra.1, (compare_embeddings_iff _ _ _ href hng).mpr hcontra.2⟩
  · refine ⟨[(1 : ℚ), 0], 1, 3 / 5,
      [("a", [{ embedding := [4, 3], gender := 1 }, { embedding := [1, 0], gender := 1 }])],
      ("a", { embedding := [4, 3], gender := 1 }),
      { embedding := [1, 0], gender := 1 },
      [{ embedding := [4, 3], gender := 1 }, { embedding := [1, 0], gender := 1 }],
      ?_, ?_, ?_, ?_, ?_, ?_⟩
    · have hscan : scanIndex [(1 : ℚ), 0] 1 (3 / 5)
          [("a", [{ embedding := [4, 3], gender := 1 },
            { embedding := [1, 0], gender := 1 }])] =
            [("a", { embedding := [4, 3], gender := 1 })] := by
        have hcmp1 : compare_embeddings [(1 : ℚ), 0] [4, 3] (3 / 5) = true := by
          norm_num [compare_embeddings, simGTb, normSq, dotP]
        simp [scanIndex, firstMatch, hcmp1]
      rw [find_matching_faces, hscan, List.mergeSort_singleton]
    · exact List.mem_singleton.mpr rfl
    · simp
    · rfl
    · have hsim : similarity [(1 : ℚ), 0] [(1 : ℚ), 0] = 1 := by
        unfold similarity
        rw [show dotP [(1 : ℚ), 0] [(1 : ℚ), 0] = 1 by norm_num [dotP],
          show normSq [(1 : ℚ), 0] = 1 by norm_num [normSq, dotP]]
        push_cast
        rw [Real.sqrt_one]
        norm_num
      rw [hsim]
      norm_num
    · have hsimA : similarity [(1 : ℚ), 0] [(4 : ℚ), 3] = 4 / 5 := by
        unfold similarity
        rw [show dotP [(1 : ℚ), 0] [(4 : ℚ), 3] = 4 by norm_num [dotP],
          show normSq [(1 : ℚ), 0] = 1 by norm_num [normSq, dotP],
          show normSq [(4 : ℚ), 3] = 25 by norm_num [normSq, dotP]]
        push_cast
        rw [Real.sqrt_one, show (25 : ℝ) = 5 ^ 2 by norm_num,
          Real.sqrt_sq (by norm_num : (0 : ℝ) ≤ 5)]
        norm_num
      have hsimB : similarity [(1 : ℚ), 0] [(1 : ℚ), 0] = 1 := by
        unfold similarity
        rw [show dotP [(1 : ℚ), 0] [(1 : ℚ), 0] = 1 by norm_num [dotP],
          show normSq [(1 : ℚ), 0] = 1 by norm_num [normSq, dotP]]
        push_cast
        rw [Real.sqrt_one]
        norm_num
      rw [hsimA, hsimB]
      norm_num

/-- Witness for C2 at a concrete input: a one-entry index with a single
qualifying male face. -/
theorem C2_witness :
    ([("a", [({ embedding := [1, 0], gender := 1 } : FaceRecord)])].map
        (Prod.fst (α := String) (β := List FaceRecord))).Nodup ∧
    normSq [(1 : ℚ), 0] ≠ 0 ∧
    (∀ e ∈ [("a", [({ embedding := [1, 0], gender := 1 } : FaceRecord)])],
        ∀ f ∈ e.2, normSq f.embedding ≠ 0) ∧
    ((∀ fn, ((find_matching_faces [(1 : ℚ), 0] 1 (3 / 5)
          [("a", [({ embedding := [1, 0], gender := 1 } : FaceRecord)])]).map
            Prod.fst).count fn ≤ 1) ∧
      (∀ p ∈ find_matching_faces [(1 : ℚ), 0] 1 (3 / 5)
          [("a", [({ embedding := [1, 0], gender := 1 } : FaceRecord)])],
        ∃ faces l₁ l₂,
          (p.1, faces) ∈ [("a", [({ embedding := [1, 0], gender := 1 } : FaceRecord)])] ∧
            faces = l₁ ++ p.2 :: l₂ ∧ p.2.gender = 1 ∧
            (3 / 5 : ℚ) < similarity [(1 : ℚ), 0] p.2.embedding ∧
            ∀ g ∈ l₁, ¬(g.gender = 1 ∧ (3 / 5 : ℚ) < similarity [(1 : ℚ), 0] g.embedding))) := by
  refine ⟨by simp, by norm_num [normSq, dotP], ?_, ?_⟩
  · intro e he f hf
    simp only [List.mem_singleton] at he
    subst he
    simp only [List.mem_singleton] at hf
    subst hf
    norm_num [normSq, dotP]
  · exact (C2_first_qualifying_face_per_file.1 [(1 : ℚ), 0] 1 (3 / 5)
      [("a", [({ embedding := [1, 0], gender := 1 } : FaceRecord)])]
      (by simp) (by norm_num [normSq, dotP])
      (by
        intro e he f hf
        simp only [List.mem_singleton] at he
        subst he
        simp only [List.mem_singleton] at hf
        subst hf
        norm_num [normSq, dotP]))

/-- C10: The persisted index only grows across successful runs: every key
of the previously persisted index is a key of the merged index, the entry
count does not decrease, and consequently the `imagesCount` written on
completion of one run is at most the one written by the next run (whose
prior index is that run's merged index). -/
theorem C10_images_count_monotone :
    ∀ (α : Type) (old run1 run2 : List (String × α)),
      (∀ k ∈ old.map Prod.fst, k ∈ (dictMerge old run1).map Prod.fst) ∧
      old.length ≤ (dictMerge old run1).length ∧
      completionImagesCount old run1 ≤
        completionImagesCount (dictMerge old run1) run2 := by
  have hkeys : ∀ (α : Type) (old run : List (String × α)) (k : String),
      k ∈ old.map Prod.fst → k ∈ (dictMerge old run).map Prod.fst := by
    intro α old run k hk
    rw [dictMerge, List.map_append]
    apply List.mem_append_left
    rw [List.map_map]
    simpa using hk
  have hlen : ∀ (α : Type) (old run : List (String × α)),
      old.length ≤ (dictMerge old run).length := by
    intro α old run
    rw [dictMerge, List.length_append, List.length_map]
    exact Nat.le_add_right _ _
  intro α old run1 run2
  exact ⟨fun k => hkeys α old run1 k, hlen α old run1,
    hlen α (dictMerge old run1) run2⟩

theorem charToNat_ofNat_valid (n : Nat) (h : n.isValidChar) :
    (Char.ofNat n).toNat = n := by
  unfold Char.ofNat
  rw [dif_pos h]
  unfold Char.ofNatAux Char.toNat
  simp [UInt32.toNat, BitVec.toNat_ofNatLt]

/-- Python `str.lower` never produces an uppercase ASCII letter, so suffix
tests against uppercase extension strings on a lowered name are dead code. -/
theorem toLower_ne_upper (x c : Char) (hc1 : 65 ≤ c.toNat) (hc2 : c.toNat ≤ 90) :
    x.toLower ≠ c := by
  unfold Char.toLower
  simp only
  by_cases hcond : x.toNat ≥ 65 ∧ x.toNat ≤ 90
  · rw [if_pos hcond]
    intro h
    have h2 : (Char.ofNat (x.toNat + 32)).toNat = c.toNat := by rw [h]
    have hv : (x.toNat + 32).isValidChar := by
      left
      omega
    rw [charToNat_ofNat_valid _ hv] at h2
    omega
  · rw [if_neg hcond]
    intro h
    subst h
    omega

theorem strEndsWith_iff_suffix (s t : String) :
    strEndsWith s t = true ↔ ∃ p, s.data = p ++ t.data := by
  rw [strEndsWith, List.isSuffixOf_iff_suffix]
  constructor
  · rintro ⟨p, hp⟩
    exact ⟨p, hp.symm⟩
  · rintro ⟨p, hp⟩
    exact ⟨p, hp.symm⟩

theorem strEndsWith_lower_upper_false (n ext : String) (c : Char)
    (hc : c ∈ ext.data) (h65 : 65 ≤ c.toNat) (h90 : c.toNat ≤ 90) :
    strEndsWith (lowerStr n) ext = false := by
  by_contra h
  have htrue : strEndsWith (lowerStr n) ext = true := by
    revert h
    cases strEndsWith (lowerStr n) ext <;> simp
  obtain ⟨p, hp⟩ := (strEndsWith_iff_suffix _ _).mp htrue
  have hmem : c ∈ (lowerStr n).data := by
    rw [hp]
    exact List.mem_append_right p hc
  rw [lowerStr] at hmem
  simp only [List.mem_map] at hmem
  obtain ⟨x, _, hx⟩ := hmem
  exact toLower_ne_upper x c h65 h90 hx

/-- C7 counterexample: a search against a collection in status
`processing` (not `complete`) is rejected with a 400 validation error, but
a `processing` status update has already been issued to the SearchRequest,
so the record is mutated beyond the rejection — the update list is not
empty. -/
theorem C7_counterexample :
    search_photos (some ⟨some "c"⟩) (fun _ => some ⟨"processing", 5⟩) [] none (3 / 5) =
      (SearchOutcome.httpError 400, [{ status := "processing" }]) ∧
    (search_photos (some ⟨some "c"⟩) (fun _ => some ⟨"processing", 5⟩) [] none
        (3 / 5)).2 ≠ [] := by
  exact ⟨by decide, by decide⟩

/-- C7 amended: for every search whose SearchRequest resolves to an
existing collection whose status is not `complete`, the endpoint rejects
with a 400 validation error, and exactly one update — the fire-and-forget
`processing` status update issued before the collection check — has been
sent to the SearchRequest; no further update (in particular no error
marking) follows the rejection. -/
theorem C7_amended_processing_update_precedes_rejection
    (sr : SearchRequestRec) (cid : String)
    (getCollection : String → Option CollectionRec) (coll : CollectionRec)
    (refFaces : List FaceRecord)
    (index? : Option (List (String × List FaceRecord))) (t : ℚ)
    (hcid : sr.collectionId = some cid)
    (hcoll : getCollection cid = some coll)
    (hstatus : coll.status ≠ "complete") :
    search_photos (some sr) getCollection refFaces index? t =
      (SearchOutcome.httpError 400, [{ status := "processing" }]) := by
  simp only [search_photos, hcid, hcoll]
  rw [if_pos hstatus]

/-- Witness for C7 amended at a concrete input. -/
theorem C7_witness :
    (SearchRequestRec.mk (some "c")).collectionId = some "c" ∧
    (fun _ : String => some (CollectionRec.mk "error" 3)) "c" =
      some (CollectionRec.mk "error" 3) ∧
    (CollectionRec.mk "error" 3).status ≠ "complete" ∧
    search_photos (some (SearchRequestRec.mk (some "c")))
        (fun _ => some (CollectionRec.mk "error" 3)) [] none (3 / 5) =
      (SearchOutcome.httpError 400, [{ status := "processing" }]) := by
  refine ⟨rfl, rfl, by decide, ?_⟩
  exact C7_amended_processing_update_precedes_rejection
    (SearchRequestRec.mk (some "c")) "c" (fun _ => some (CollectionRec.mk "error" 3))
    (CollectionRec.mk "error" 3) [] none (3 / 5) rfl rfl (by decide)

/-- C8 counterexample: an ingest run over eleven members that all contain a
face issues a progress update after every single successfully processed
member — eleven updates carrying counts 1 through 11 — although more than
10 items are processed; the `% 10` in `process_images` only gates a log
line, not the update. -/
theorem C8_counterexample :
    (process_images "c" (fun _ => [{ embedding := [1], gender := 1 }])
        ["1", "2", "3", "4", "5", "6", "7", "8", "9", "10", "11"]).progress_events =
      [1, 2, 3, 4, 5, 6, 7, 8, 9, 10, 11] ∧
    (process_images "c" (fun _ => [{ embedding := [1], gender := 1 }])
        ["1", "2", "3", "4", "5", "6", "7", "8", "9", "10", "11"]).processed_count = 11 ∧
    10 < (["1", "2", "3", "4", "5", "6", "7", "8", "9", "10", "11"] : List String).length := by
  exact ⟨by decide, by decide, by decide⟩

theorem process_images_foldl_inv (cid : String) (extract : String → List FaceRecord)
    (members : List String) (st : IngestState) :
    (members.foldl (process_member cid extract) st).processed_count =
      st.processed_count + members.countP (fun m => decide (extract m ≠ [])) ∧
    (members.foldl (process_member cid extract) st).progress_events =
      st.progress_events ++
        List.range' (st.processed_count + 1)
          (members.countP (fun m => decide (extract m ≠ []))) := by
  induction members generalizing st with
  | nil => simp
  | cons m ms ih =>
    rw [List.foldl_cons]
    by_cases hm : extract m = []
    · have hstep : process_member cid extract st m = st := by
        rw [process_member, if_pos hm]
      rw [hstep, List.countP_cons_of_neg _ _ (by simp [hm])]
      exact ih st
    · have hstep1 : (process_member cid extract st m).processed_count =
          st.processed_count + 1 := by
        rw [process_member, if_neg hm]
      have hstep2 : (process_member cid extract st m).progress_events =
          st.progress_events ++ [st.processed_count + 1] := by
        rw [process_member, if_neg hm]
      obtain ⟨ih1, ih2⟩ := ih (process_member cid extract st m)
      rw [List.countP_cons_of_pos _ _ (by simp [hm])]
      constructor
      · rw [ih1, hstep1]
        omega
      · rw [ih2, hstep2, hstep1, List.append_assoc, List.range'_succ]
        rfl


/-- C8 amended: in an ingest run, a progress update is emitted after every
successfully processed member (carrying the running processed-count
1, 2, …), and for no one else: the update sequence is exactly
`1, …, processed_count` where `processed_count` counts the members whose
extraction returned at least one face.  There is no 10-item throttling in
the ingest pipeline (the `% 10` gates only a log print), so a run of more
than 10 face-bearing members receives one update per item; a skipped final
member receives none. -/
theorem C8_amended_update_per_processed_item (cid : String)
    (extract : String → List FaceRecord) (members : List String) :
    (process_images cid extract members).progress_events =
      List.range' 1 ((process_images cid extract members).processed_count) ∧
    (process_images cid extract members).processed_count =
      members.countP (fun m => decide (extract m ≠ [])) := by
  have h := process_images_foldl_inv cid extract members {}
  constructor
  · rw [process_images, h.2, h.1]
    simp
  · rw [process_images, h.1]
    simp

theorem legacy_stream_foldl_allzero (extract : String → Option (List FaceRecord))
    (base : String) (h : ∀ m, extract m = some [])
    (members : List String) (acc : List (String × List FaceRecord) × List String) :
    members.foldl (legacy_stream_step extract base) acc =
      (acc.1, acc.2 ++ members.map (fun m => base ++ "/images/" ++ pathName m)) := by
  induction members generalizing acc with
  | nil => simp
  | cons m ms ih =>
    rw [List.foldl_cons]
    have hstep : legacy_stream_step extract base acc m =
        (acc.1, acc.2 ++ [base ++ "/images/" ++ pathName m]) := by
      rw [legacy_stream_step, legacy_process_image, h (pathName m)]
      simp
    rw [hstep, ih]
    simp

/-- C4 counterexample: in the legacy Flask pipeline a member on which the
extractor returns zero faces still has its image uploaded (to
`base_path/images/name`), contradicting the claim that zero-face members
trigger no image upload; it does stay out of the consolidated embeddings.
-/
theorem C4_counterexample :
    (fun _ : String => some ([] : List FaceRecord)) "p.jpg" = some [] ∧
    legacy_stream_process (fun _ => some []) "b" ["p.jpg"] =
      ([], ["b/images/p.jpg"]) ∧
    "b/images/p.jpg" ∈ (legacy_stream_process (fun _ => some []) "b" ["p.jpg"]).2 := by
  exact ⟨rfl, by decide, by decide⟩

/-- C4 amended: in the FastAPI ingest pipeline (`process_images`), a member
on which the extractor returns zero faces is skipped entirely — the run is
identical to one in which that member is absent (so it contributes no
index entry, no stored image, no preview key, no progress update).  In the
legacy Flask pipeline (`process_image_from_zip`), the zero-face member's
image IS uploaded, although it still contributes no entry to the
consolidated embeddings: a run whose members all extract to zero faces
produces an empty embeddings list but uploads every member. -/
theorem C4_amended_zero_face_policy :
    (∀ (cid : String) (extract : String → List FaceRecord)
        (l₁ l₂ : List String) (m : String),
      extract m = [] →
      process_images cid extract (l₁ ++ m :: l₂) =
        process_images cid extract (l₁ ++ l₂)) ∧
    (∀ (extract : String → Option (List FaceRecord)) (base : String)
        (members : List String),
      (∀ m, extract m = some []) →
      legacy_stream_process extract base members =
        ([], members.map (fun m => base ++ "/images/" ++ pathName m))) := by
  constructor
  · intro cid extract l₁ l₂ m hm
    have hstep : ∀ st : IngestState, process_member cid extract st m = st := by
      intro st
      rw [process_member, if_pos hm]
    rw [process_images, process_images, List.foldl_append, List.foldl_append,
      List.foldl_cons, hstep]
  · intro extract base members h
    rw [legacy_stream_process, legacy_stream_foldl_allzero extract base h]
    simp

/-- Witness for C4 amended at concrete inputs. -/
theorem C4_witness :
    (fun m : String => if m = "z" then ([] : List FaceRecord)
        else [{ embedding := [1], gender := 1 }]) "z" = [] ∧
    process_images "c"
        (fun m => if m = "z" then [] else [{ embedding := [1], gender := 1 }])
        (["a"] ++ "z" :: ["b"]) =
      process_images "c"
        (fun m => if m = "z" then [] else [{ embedding := [1], gender := 1 }])
        (["a"] ++ ["b"]) ∧
    legacy_stream_process (fun _ => some []) "b" ["p.jpg"] =
      ([], ["p.jpg"].map (fun m => "b" ++ "/images/" ++ pathName m)) := by
  refine ⟨by simp, ?_, ?_⟩
  · exact C4_amended_zero_face_policy.1 "c"
      (fun m => if m = "z" then [] else [{ embedding := [1], gender := 1 }])
      ["a"] ["b"] "z" (by simp)
  · exact C4_amended_zero_face_policy.2 (fun _ => some []) "b" ["p.jpg"]
      (fun _ => rfl)

/-- C5 counterexample: `open_zip_and_list_images` keeps the dot-prefixed
member `.a.png` and drops the bmp member `b.bmp`, while the claimed filter
(spec section 4.1: extensions jpg/jpeg/png/bmp, junk markers and dotfiles
excluded) would do exactly the opposite. -/
theorem C5_counterexample :
    open_zip_and_list_images [".a.png", "b.bmp"] = [".a.png"] ∧
    specC5Allowed "b.bmp" ∧ ¬specC5Allowed ".a.png" ∧
    "b.bmp" ∉ open_zip_and_list_images [".a.png", "b.bmp"] ∧
    ".a.png" ∈ open_zip_and_list_images [".a.png", "b.bmp"] := by
  refine ⟨by decide, ?_, ?_, by decide, by decide⟩
  · refine ⟨⟨"bmp", by simp, ⟨['b'], rfl⟩⟩, by decide, by decide⟩
  · rintro ⟨-, -, hdot⟩
    have : strStartsWith ".a.png" "." = true := by decide
    rw [this] at hdot
    exact Bool.noConfusion hdot

/-- C5 amended: the FastAPI unpacker `open_zip_and_list_images` returns
exactly the members whose lowercased name ends in `.jpg`, `.jpeg` or
`.png` (no `bmp`; the uppercase tuple entries are unreachable after
`.lower()`) and which do not begin with `__MACOSX` — dot-prefixed members
are NOT excluded.  The legacy Flask filter `stream_process_zip` implements
the originally claimed contract: lowercase extension in
jpg/jpeg/png/bmp, excluding `__MACOSX` paths and dot-prefixed paths. -/
theorem C5_amended_filter_characterization :
    (∀ (names : List String) (n : String),
      n ∈ open_zip_and_list_images names ↔
        n ∈ names ∧
          (∃ e ∈ ["jpg", "jpeg", "png"],
            ∃ p, (lowerStr n).data = p ++ ('.' :: e.data)) ∧
          strStartsWith n "__MACOSX" = false) ∧
    (∀ (names : List String) (n : String),
      n ∈ stream_zip_image_files names ↔ n ∈ names ∧ specC5Allowed n) := by
  have hJ : ∀ s : String, strEndsWith (lowerStr s) ".JPG" = false := fun s =>
    strEndsWith_lower_upper_false s ".JPG" 'J' (by decide) (by decide) (by decide)
  have hJE : ∀ s : String, strEndsWith (lowerStr s) ".JPEG" = false := fun s =>
    strEndsWith_lower_upper_false s ".JPEG" 'J' (by decide) (by decide) (by decide)
  have hP : ∀ s : String, strEndsWith (lowerStr s) ".PNG" = false := fun s =>
    strEndsWith_lower_upper_false s ".PNG" 'P' (by decide) (by decide) (by decide)
  constructor
  · intro names n
    rw [open_zip_and_list_images, List.mem_filter]
    refine and_congr_right (fun _ => ?_)
    rw [Bool.and_eq_true, Bool.not_eq_true']
    refine and_congr_left (fun _ => ?_)
    rw [List.any_eq_true]
    constructor
    · rintro ⟨e, he, hends⟩
      simp only [List.mem_cons, List.not_mem_nil, or_false] at he
      rcases he with rfl | rfl | rfl | rfl | rfl | rfl
      · exact ⟨"jpg", by simp, (strEndsWith_iff_suffix _ _).mp hends⟩
      · exact ⟨"jpeg", by simp, (strEndsWith_iff_suffix _ _).mp hends⟩
      · exact ⟨"png", by simp, (strEndsWith_iff_suffix _ _).mp hends⟩
      · rw [hJ n] at hends
        exact absurd hends (by simp)
      · rw [hJE n] at hends
        exact absurd hends (by simp)
      · rw [hP n] at hends
        exact absurd hends (by simp)
    · rintro ⟨e, he, p, hp⟩
      simp only [List.mem_cons, List.not_mem_nil, or_false] at he
      rcases he with rfl | rfl | rfl
      · exact ⟨".jpg", by simp, (strEndsWith_iff_suffix _ _).mpr ⟨p, hp⟩⟩
      · exact ⟨".jpeg", by simp, (strEndsWith_iff_suffix _ _).mpr ⟨p, hp⟩⟩
      · exact ⟨".png", by simp, (strEndsWith_iff_suffix _ _).mpr ⟨p, hp⟩⟩
  · intro names n
    rw [stream_zip_image_files, List.mem_filter]
    refine and_congr_right (fun _ => ?_)
    rw [specC5Allowed]
    rw [Bool.and_eq_true, Bool.and_eq_true, Bool.not_eq_true', Bool.not_eq_true']
    constructor
    · rintro ⟨⟨hany, hmac⟩, hdot⟩
      rw [List.any_eq_true] at hany
      obtain ⟨e, he, hends⟩ := hany
      refine ⟨?_, hmac, hdot⟩
      simp only [List.mem_cons, List.not_mem_nil, or_false] at he
      rcases he with rfl | rfl | rfl | rfl
      · exact ⟨"jpg", by simp, (strEndsWith_iff_suffix _ _).mp hends⟩
      · exact ⟨"jpeg", by simp, (strEndsWith_iff_suffix _ _).mp hends⟩
      · exact ⟨"png", by simp, (strEndsWith_iff_suffix _ _).mp hends⟩
      · exact ⟨"bmp", by simp, (strEndsWith_iff_suffix _ _).mp hends⟩
    · rintro ⟨⟨e, he, p, hp⟩, hmac, hdot⟩
      refine ⟨⟨?_, hmac⟩, hdot⟩
      rw [List.any_eq_true]
      simp only [List.mem_cons, List.not_mem_nil, or_false] at he
      rcases he with rfl | rfl | rfl | rfl
      · exact ⟨".jpg", by simp, (strEndsWith_iff_suffix _ _).mpr ⟨p, hp⟩⟩
      · exact ⟨".jpeg", by simp, (strEndsWith_iff_suffix _ _).mpr ⟨p, hp⟩⟩
      · exact ⟨".png", by simp, (strEndsWith_iff_suffix _ _).mpr ⟨p, hp⟩⟩
      · exact ⟨".bmp", by simp, (strEndsWith_iff_suffix _ _).mpr ⟨p, hp⟩⟩

theorem string_ext {s t : String} (h : s.data = t.data) : s = t := by
  cases s
  cases t
  exact congrArg String.mk h

theorem digitVal_append_singleton (l : List Char) (c : Char) :
    digitVal (l ++ [c]) = 10 * digitVal l + (c.toNat - 48) := by
  rw [digitVal, List.foldl_append]
  rw [digitVal]
  simp [Nat.mul_comm]

theorem digitChar_toNat : ∀ d < 10, (Nat.digitChar d).toNat = 48 + d := by decide

theorem natStrAux_val : ∀ (fuel n : Nat), n < fuel → digitVal (natStrAux fuel n) = n := by
  intro fuel
  induction fuel with
  | zero =>
    intro n hn
    omega
  | succ fuel ih =>
    intro n hn
    by_cases h10 : n < 10
    · rw [natStrAux, if_pos h10]
      rw [show [Nat.digitChar n] = [] ++ [Nat.digitChar n] from rfl,
        digitVal_append_singleton, digitChar_toNat n h10]
      rw [digitVal]
      simp
    · rw [natStrAux, if_neg h10]
      have hdiv : n / 10 < fuel := by
        have h1 : n / 10 < n := Nat.div_lt_self (by omega) (by omega)
        omega
      rw [digitVal_append_singleton, ih (n / 10) hdiv,
        digitChar_toNat (n % 10) (Nat.mod_lt n (by omega))]
      omega

theorem natStr_injective (m n : Nat) (h : natStr m = natStr n) : m = n := by
  have hdata : natStrAux (m + 1) m = natStrAux (n + 1) n := by
    have := congrArg String.data h
    simpa [natStr] using this
  have hm := natStrAux_val (m + 1) m (Nat.lt_succ_self m)
  have hn := natStrAux_val (n + 1) n (Nat.lt_succ_self n)
  rw [← hm, ← hn, hdata]

theorem candidateName_injective (stem ext : String) (c₁ c₂ : Nat)
    (h : candidateName stem ext c₁ = candidateName stem ext c₂) : c₁ = c₂ := by
  have hdata := congrArg String.data h
  have hdata2 : stem.data ++ "-".data ++ (natStr c₁).data ++ ext.data =
      stem.data ++ "-".data ++ (natStr c₂).data ++ ext.data := hdata
  have h3 : (natStr c₁).data ++ ext.data = (natStr c₂).data ++ ext.data := by
    rw [List.append_assoc, List.append_assoc, List.append_assoc, List.append_assoc]
      at hdata2
    have h5 := List.append_cancel_left hdata2
    exact List.append_cancel_left h5
  have h4 : (natStr c₁).data = (natStr c₂).data := List.append_cancel_right h3
  exact natStr_injective c₁ c₂ (string_ext h4)

/-- Pigeonhole for the counter search: among the first `used.length + 1`
candidate names, at least one is not in `used`. -/
theorem exists_free_counter (stem ext : String) (used : List String) :
    ∃ k < used.length + 1, candidateName stem ext (k + 1) ∉ used := by
  by_contra hall
  push_neg at hall
  have hinj : Set.InjOn (fun k : Fin (used.length + 1) => candidateName stem ext (k.1 + 1))
      ↑(Finset.univ : Finset (Fin (used.length + 1))) := by
    intro x _ y _ hxy
    have := candidateName_injective stem ext (x.1 + 1) (y.1 + 1) hxy
    exact Fin.ext (by omega)
  have hmaps : ∀ k ∈ (Finset.univ : Finset (Fin (used.length + 1))),
      candidateName stem ext (k.1 + 1) ∈ used.toFinset := by
    intro k _
    rw [List.mem_toFinset]
    exact hall k.1 k.2
  have hcard := Finset.card_le_card_of_injOn _ hmaps hinj
  rw [Finset.card_univ, Fintype.card_fin] at hcard
  have := used.toFinset_card_le
  omega

theorem findFreeName_spec (used : List String) (stem ext : String) :
    ∀ (fuel start : Nat),
      (∃ k < fuel, candidateName stem ext (start + k) ∉ used) →
      ∃ k, findFreeName used stem ext fuel start = candidateName stem ext (start + k) ∧
        candidateName stem ext (start + k) ∉ used ∧
        ∀ j < k, candidateName stem ext (start + j) ∈ used := by
  intro fuel
  induction fuel with
  | zero =>
    rintro start ⟨k, hk, -⟩
    omega
  | succ fuel ih =>
    rintro start ⟨k, hk, hfree⟩
    by_cases hmem : candidateName stem ext start ∈ used
    · have hk0 : k ≠ 0 := by
        rintro rfl
        rw [Nat.add_zero] at hfree
        exact hfree hmem
      obtain ⟨k', rfl⟩ : ∃ k', k = k' + 1 := ⟨k - 1, by omega⟩
      have hex : ∃ j < fuel, candidateName stem ext (start + 1 + j) ∉ used := by
        refine ⟨k', by omega, ?_⟩
        have : start + 1 + k' = start + (k' + 1) := by omega
        rw [this]
        exact hfree
      obtain ⟨k'', heq, hfree'', hall⟩ := ih (start + 1) hex
      refine ⟨k'' + 1, ?_, ?_, ?_⟩
      · rw [findFreeName, if_pos hmem, heq]
        congr 1
        omega
      · have : start + (k'' + 1) = start + 1 + k'' := by omega
        rw [this]
        exact hfree''
      · intro j hj
        rcases Nat.eq_zero_or_pos j with rfl | hjpos
        · rw [Nat.add_zero]
          exact hmem
        · obtain ⟨j', rfl⟩ : ∃ j', j = j' + 1 := ⟨j - 1, by omega⟩
          have : start + (j' + 1) = start + 1 + j' := by omega
          rw [this]
          exact hall j' (by omega)
    · refine ⟨0, ?_, ?_, ?_⟩
      · rw [findFreeName, if_neg hmem, Nat.add_zero]
      · rw [Nat.add_zero]
        exact hmem
      · intro j hj
        omega

theorem sanitizeName_chars (s : String) :
    ∀ c ∈ (sanitizeName s).data, isAllowedChar c = true := by
  intro c hc
  rw [sanitizeName] at hc
  simp only [List.mem_map] at hc
  obtain ⟨x, -, hx⟩ := hc
  by_cases hall : isAllowedChar x = true
  · rw [if_pos hall] at hx
    rw [← hx]
    exact hall
  · rw [if_neg hall] at hx
    rw [← hx]
    decide

theorem sanitizedBase_chars (filename : String) :
    ∀ c ∈ (sanitizedBase filename).data, isAllowedChar c = true := by
  intro c hc
  rw [sanitizedBase] at hc
  by_cases hempty : sanitizeName (pathName filename) = ""
  · rw [if_pos hempty] at hc
    have hfile : ∀ x ∈ "file".data, isAllowedChar x = true := by decide
    exact hfile c hc
  · rw [if_neg hempty] at hc
    exact sanitizeName_chars (pathName filename) c hc

theorem sanitizedBase_ne_empty (filename : String) : sanitizedBase filename ≠ "" := by
  rw [sanitizedBase]
  by_cases hempty : sanitizeName (pathName filename) = ""
  · rw [if_pos hempty]
    decide
  · rw [if_neg hempty]
    exact hempty

theorem natStrAux_chars : ∀ (fuel n : Nat), ∀ c ∈ natStrAux fuel n,
    isAllowedChar c = true := by
  have hdigit : ∀ d < 10, isAllowedChar (Nat.digitChar d) = true := by decide
  intro fuel
  induction fuel with
  | zero =>
    intro n c hc
    simp [natStrAux] at hc
  | succ fuel ih =>
    intro n c hc
    rw [natStrAux] at hc
    by_cases h10 : n < 10
    · rw [if_pos h10] at hc
      simp only [List.mem_singleton] at hc
      rw [hc]
      exact hdigit n h10
    · rw [if_neg h10] at hc
      rcases List.mem_append.mp hc with hc | hc
      · exact ih (n / 10) c hc
      · simp only [List.mem_singleton] at hc
        rw [hc]
        exact hdigit (n % 10) (Nat.mod_lt n (by omega))

theorem splitStemExt_append (s : String) :
    (splitStemExt s).1 ++ (splitStemExt s).2 = s := by
  rcases h : lastDotIdx s.data with _ | i
  · simp only [splitStemExt, h]
    apply string_ext
    show s.data ++ [] = s.data
    simp
  · simp only [splitStemExt, h]
    by_cases hcond : 0 < i ∧ i < s.data.length - 1
    · rw [if_pos hcond]
      apply string_ext
      show (s.data.take i) ++ (s.data.drop i) = s.data
      exact List.take_append_drop i s.data
    · rw [if_neg hcond]
      apply string_ext
      show s.data ++ [] = s.data
      simp

theorem splitStemExt_chars (s : String) (c : Char) :
    (c ∈ (splitStemExt s).1.data → c ∈ s.data) ∧
    (c ∈ (splitStemExt s).2.data → c ∈ s.data) := by
  rcases h : lastDotIdx s.data with _ | i
  · simp only [splitStemExt, h]
    exact ⟨fun hc => hc, fun hc => by simp at hc⟩
  · simp only [splitStemExt, h]
    by_cases hcond : 0 < i ∧ i < s.data.length - 1
    · rw [if_pos hcond]
      exact ⟨fun hc => List.mem_of_mem_take hc, fun hc => List.mem_of_mem_drop hc⟩
    · rw [if_neg hcond]
      exact ⟨fun hc => hc, fun hc => by simp at hc⟩

theorem candidateName_chars (stem ext : String) (k : Nat)
    (hstem : ∀ c ∈ stem.data, isAllowedChar c = true)
    (hext : ∀ c ∈ ext.data, isAllowedChar c = true) :
    ∀ c ∈ (candidateName stem ext k).data, isAllowedChar c = true := by
  intro c hc
  have hdata : (candidateName stem ext k).data =
      stem.data ++ "-".data ++ (natStr k).data ++ ext.data := rfl
  rw [hdata] at hc
  rcases List.mem_append.mp hc with hc | hc
  · rcases List.mem_append.mp hc with hc | hc
    · rcases List.mem_append.mp hc with hc | hc
      · exact hstem c hc
      · have hc2 : c = '-' := by simpa using hc
        rw [hc2]
        decide
    · exact natStrAux_chars (k + 1) k c hc
  · exact hext c hc

theorem candidateName_ne_empty (stem ext : String) (k : Nat) :
    candidateName stem ext k ≠ "" := by
  intro h
  have hdata := congrArg String.data h
  have h2 : stem.data ++ "-".data ++ (natStr k).data ++ ext.data = [] := hdata
  simp at h2

/-- Full specification of one `normalize_filename` call: the returned name
is fresh, gets added to the used set, is nonempty, and uses only allowed
characters. -/
theorem normalize_filename_spec (filename : String) (used : List String) :
    (normalize_filename filename used).1 ∉ used ∧
    (normalize_filename filename used).2 = (normalize_filename filename used).1 :: used ∧
    (normalize_filename filename used).1 ≠ "" ∧
    (∀ c ∈ (normalize_filename filename used).1.data, isAllowedChar c = true) := by
  by_cases hmem : sanitizedBase filename ∈ used
  · obtain ⟨k, hlt, hfree⟩ := exists_free_counter (splitStemExt (sanitizedBase filename)).1
      (splitStemExt (sanitizedBase filename)).2 used
    have hex : ∃ j < used.length + 1,
        candidateName (splitStemExt (sanitizedBase filename)).1
          (splitStemExt (sanitizedBase filename)).2 (1 + j) ∉ used := by
      refine ⟨k, hlt, ?_⟩
      rwa [Nat.add_comm 1 k]
    obtain ⟨j, heq, hfree', -⟩ := findFreeName_spec used _ _ (used.length + 1) 1 hex
    have hval : normalize_filename filename used =
        (candidateName (splitStemExt (sanitizedBase filename)).1
            (splitStemExt (sanitizedBase filename)).2 (1 + j),
          candidateName (splitStemExt (sanitizedBase filename)).1
            (splitStemExt (sanitizedBase filename)).2 (1 + j) :: used) := by
      rw [normalize_filename, if_pos hmem, heq]
    rw [hval]
    exact ⟨hfree', rfl, candidateName_ne_empty _ _ _,
      candidateName_chars _ _ _
        (fun c hc => sanitizedBase_chars filename c
          ((splitStemExt_chars (sanitizedBase filename) c).1 hc))
        (fun c hc => sanitizedBase_chars filename c
          ((splitStemExt_chars (sanitizedBase filename) c).2 hc))⟩
  · have hval : normalize_filename filename used =
        (sanitizedBase filename, sanitizedBase filename :: used) := by
      rw [normalize_filename, if_neg hmem]
    rw [hval]
    exact ⟨hmem, rfl, sanitizedBase_ne_empty filename, sanitizedBase_chars filename⟩

theorem normalizeRun_spec (members : List String) :
    ∀ used₀ : List String,
      (normalizeRun members used₀).1.Nodup ∧
      (∀ o ∈ (normalizeRun members used₀).1, o ∉ used₀) ∧
      (∀ o ∈ (normalizeRun members used₀).1,
        o ≠ "" ∧ ∀ c ∈ o.data, isAllowedChar c = true) := by
  induction members with
  | nil =>
    intro used₀
    refine ⟨List.nodup_nil, ?_, ?_⟩
    · intro o ho
      simp [normalizeRun] at ho
    · intro o ho
      simp [normalizeRun] at ho
  | cons m ms ih =>
    intro used₀
    obtain ⟨h1, h2, h3, h4⟩ := normalize_filename_spec m used₀
    have hrun : normalizeRun (m :: ms) used₀ =
        ((normalize_filename m used₀).1 ::
            (normalizeRun ms (normalize_filename m used₀).2).1,
          (normalizeRun ms (normalize_filename m used₀).2).2) := rfl
    rw [hrun]
    obtain ⟨ihn, ihfresh, ihchars⟩ := ih (normalize_filename m used₀).2
    simp only
    refine ⟨?_, ?_, ?_⟩
    · rw [List.nodup_cons]
      refine ⟨?_, ihn⟩
      intro hcontra
      have := ihfresh _ hcontra
      rw [h2] at this
      exact this (List.mem_cons_self _ _)
    · intro o ho
      rcases List.mem_cons.mp ho with rfl | ho
      · exact h1
      · intro hcontra
        have := ihfresh o ho
        rw [h2] at this
        exact this (List.mem_cons_of_mem _ hcontra)
    · intro o ho
      rcases List.mem_cons.mp ho with rfl | ho
      · exact ⟨h3, h4⟩
      · exact ihchars o ho

/-- C6: Processing any list of member paths in order against a shared
used-name set yields pairwise distinct outputs that are nonempty, use only
characters from `[A-Za-z0-9._-]`, and contain no `/` (no directory
components); a call whose sanitized basename is not yet used returns it
unchanged, and a call whose sanitized basename collides returns that name
with `-1`, `-2`, … inserted before its extension at the first unused
counter (every smaller counter's candidate being already used). -/
theorem C6_normalizer_unique_and_sanitized :
    (∀ (members used₀ : List String),
      (normalizeRun members used₀).1.Nodup ∧
      ∀ o ∈ (normalizeRun members used₀).1,
        o ≠ "" ∧ (∀ c ∈ o.data, isAllowedChar c = true) ∧ (∀ c ∈ o.data, c ≠ '/')) ∧
    (∀ (filename : String) (used : List String),
      sanitizedBase filename ∉ used →
      normalize_filename filename used =
        (sanitizedBase filename, sanitizedBase filename :: used)) ∧
    (∀ (filename : String) (used : List String),
      sanitizedBase filename ∈ used →
      (splitStemExt (sanitizedBase filename)).1 ++
          (splitStemExt (sanitizedBase filename)).2 = sanitizedBase filename ∧
      ∃ k, (normalize_filename filename used).1 =
          candidateName (splitStemExt (sanitizedBase filename)).1
            (splitStemExt (sanitizedBase filename)).2 (k + 1) ∧
        (normalize_filename filename used).1 ∉ used ∧
        ∀ j < k, candidateName (splitStemExt (sanitizedBase filename)).1
          (splitStemExt (sanitizedBase filename)).2 (j + 1) ∈ used) := by
  refine ⟨?_, ?_, ?_⟩
  · intro members used₀
    obtain ⟨hnodup, -, hchars⟩ := normalizeRun_spec members used₀
    refine ⟨hnodup, ?_⟩
    intro o ho
    obtain ⟨hne, hall⟩ := hchars o ho
    refine ⟨hne, hall, ?_⟩
    intro c hc
    have := hall c hc
    intro hslash
    rw [hslash] at this
    exact absurd this (by decide)
  · intro filename used hmem
    rw [normalize_filename, if_neg hmem]
  · intro filename used hmem
    refine ⟨splitStemExt_append (sanitizedBase filename), ?_⟩
    obtain ⟨k, hlt, hfree⟩ := exists_free_counter (splitStemExt (sanitizedBase filename)).1
      (splitStemExt (sanitizedBase filename)).2 used
    have hex : ∃ j < used.length + 1,
        candidateName (splitStemExt (sanitizedBase filename)).1
          (splitStemExt (sanitizedBase filename)).2 (1 + j) ∉ used := by
      refine ⟨k, hlt, ?_⟩
      rwa [Nat.add_comm 1 k]
    obtain ⟨j, heq, hfree', hall⟩ := findFreeName_spec used _ _ (used.length + 1) 1 hex
    have hres : (normalize_filename filename used).1 =
        findFreeName used (splitStemExt (sanitizedBase filename)).1
          (splitStemExt (sanitizedBase filename)).2 (used.length + 1) 1 := by
      rw [normalize_filename, if_pos hmem]
    refine ⟨j, ?_, ?_, ?_⟩
    · rw [hres, heq]
      congr 1
      omega
    · rw [hres, heq]
      exact hfree'
    · intro i hi
      have := hall i hi
      rwa [Nat.add_comm 1 i] at this

/-- Witness for C6 at concrete inputs: `a.jpg` against an empty used set
(no collision), and `b/a.jpg` against a used set already holding `a.jpg`
(collision, resolved by a counter before the extension). -/
theorem C6_witness :
    (sanitizedBase "a.jpg" ∉ ([] : List String)) ∧
    normalize_filename "a.jpg" [] =
      (sanitizedBase "a.jpg", sanitizedBase "a.jpg" :: []) ∧
    (sanitizedBase "b/a.jpg" ∈ ["a.jpg"]) ∧
    ((splitStemExt (sanitizedBase "b/a.jpg")).1 ++
        (splitStemExt (sanitizedBase "b/a.jpg")).2 = sanitizedBase "b/a.jpg" ∧
      ∃ k, (normalize_filename "b/a.jpg" ["a.jpg"]).1 =
          candidateName (splitStemExt (sanitizedBase "b/a.jpg")).1
            (splitStemExt (sanitizedBase "b/a.jpg")).2 (k + 1) ∧
        (normalize_filename "b/a.jpg" ["a.jpg"]).1 ∉ ["a.jpg"] ∧
        ∀ j < k, candidateName (splitStemExt (sanitizedBase "b/a.jpg")).1
          (splitStemExt (sanitizedBase "b/a.jpg")).2 (j + 1) ∈ ["a.jpg"]) := by
  refine ⟨by decide, ?_, by decide, ?_⟩
  · exact C6_normalizer_unique_and_sanitized.2.1 "a.jpg" [] (by decide)
  · exact C6_normalizer_unique_and_sanitized.2.2 "b/a.jpg" ["a.jpg"] (by decide)

/-- Witness instantiating C3's lookup characterization at a concrete merge.
-/
theorem C3_witness :
    indexLookup "x" (dictMerge [("x", 1)] [("y", 2)]) =
      if (indexLookup "x" [("y", 2)]).isSome then indexLookup "x" [("y", 2)]
      else indexLookup "x" [("x", 1)] :=
  C3_merge_new_run_wins.1 Nat [("x", 1)] [("y", 2)] "x"

/-- Witness instantiating C5's amended characterization at a concrete
member list. -/
theorem C5_witness :
    ".x.png" ∈ open_zip_and_list_images [".x.png"] ↔
      ".x.png" ∈ [".x.png"] ∧
        (∃ e ∈ ["jpg", "jpeg", "png"],
          ∃ p, (lowerStr ".x.png").data = p ++ ('.' :: e.data)) ∧
        strStartsWith ".x.png" "__MACOSX" = false :=
  C5_amended_filter_characterization.1 [".x.png"] ".x.png"

/-- Witness instantiating C8's amended per-item progress law at a concrete
run. -/
theorem C8_amended_witness :
    (process_images "c" (fun _ => [{ embedding := [1], gender := 1 }]) ["m", "n"]).progress_events =
      List.range' 1 ((process_images "c" (fun _ => [{ embedding := [1], gender := 1 }])
        ["m", "n"]).processed_count) ∧
    (process_images "c" (fun _ => [{ embedding := [1], gender := 1 }])
        ["m", "n"]).processed_count =
      (["m", "n"] : List String).countP
        (fun m => decide ((fun _ : String => [({ embedding := [1], gender := 1 } : FaceRecord)]) m ≠ [])) :=
  C8_amended_update_per_processed_item "c" (fun _ => [{ embedding := [1], gender := 1 }]) ["m", "n"]

/-- Witness instantiating C10's monotonicity at a concrete pair of runs. -/
theorem C10_witness :
    (∀ k ∈ ([("x", 1)] : List (String × Nat)).map Prod.fst,
        k ∈ (dictMerge [("x", 1)] [("y", 2)]).map Prod.fst) ∧
    ([("x", 1)] : List (String × Nat)).length ≤ (dictMerge [("x", 1)] [("y", 2)]).length ∧
    completionImagesCount [("x", 1)] [("y", 2)] ≤
      completionImagesCount (dictMerge [("x", 1)] [("y", 2)]) [] :=
  C10_images_count_monotone Nat [("x", 1)] [("y", 2)] []

end FindPhotosOfMe
